import Mathlib

/-!
Shallow embedding of `src/graph_par.c` (MPI/OpenMP Floyd–Warshall transitive
closure).  Matrices are total functions `Fin n → Fin n → Nat`, mirroring the
C `int` cells.  The per-worker relaxation sweep is modelled as the sequential
elaboration of the three nested loops in `warshall` (lines 62–75), with the
in-place cell update `tmp[i][j] = tmp[i][j] || (tmp[i][k] && tmp[k][j])`
performed one cell at a time in program order.  The `MPI_Bcast` hands every
rank the coordinator's copy of `a`; the `MPI_Reduce` with `MPI_BOR` combines
all ranks' buffers into the coordinator's `c` by bitwise or.
-/

namespace GraphPar

/-- An n×n matrix of C `int` cells. -/
def Mat (n : Nat) : Type := Fin n → Fin n → Nat

/-- C logical or on `int` values: `x || y` is 1 when either operand is
nonzero, else 0. -/
def cor (x y : Nat) : Nat := if x ≠ 0 ∨ y ≠ 0 then 1 else 0

/-- C logical and on `int` values: `x && y` is 1 when both operands are
nonzero, else 0. -/
def cand (x y : Nat) : Nat := if x ≠ 0 ∧ y ≠ 0 then 1 else 0

/-- One execution of the assignment `tmp[i][j] = tmp[i][j] || (tmp[i][k] && tmp[k][j])`
(line 66): the single cell (i, j) is overwritten, all other cells keep
their current value. -/
def updateCell {n : Nat} (M : Mat n) (k i j : Fin n) : Mat n :=
  fun i' j' =>
    if i' = i ∧ j' = j then cor (M i j) (cand (M i k) (M k j)) else M i' j'

/-- The innermost loop `for (j = 0; j < n; j++)` (line 65) over one owned
row `i` at pivot `k`, executed left to right on the evolving buffer. -/
def rowPass {n : Nat} (k i : Fin n) (M : Mat n) : Mat n :=
  (List.finRange n).foldl (fun M j => updateCell M k i j) M

/-- The middle loop `for (i = stripe*rank; i < stripe*(rank+1); i++)`
(line 64), generalized to an arbitrary list of owned rows. -/
def pivotPass {n : Nat} (owned : List (Fin n)) (k : Fin n) (M : Mat n) : Mat n :=
  owned.foldl (fun M i => rowPass k i M) M

/-- The full relaxation sweep, the loop `for (k = 0; k < n; k++)` (line 63)
taken sequentially in increasing pivot order over the owned rows. -/
def sweepRows {n : Nat} (owned : List (Fin n)) (M : Mat n) : Mat n :=
  (List.finRange n).foldl (fun M k => pivotPass owned k M) M

/-- The rows owned by rank `r` out of `W` ranks: `stripe = n / W` and rank
`r` iterates `i` from `stripe*r` to `stripe*(r+1) - 1` (lines 37 and 64). -/
def ownedRows (n W r : Nat) : List (Fin n) :=
  (List.finRange n).filter fun i =>
    decide (n / W * r ≤ i.val ∧ i.val < n / W * (r + 1))

/-- Rank `r`'s buffer after its relaxation sweep, starting from the
broadcast copy of the coordinator's matrix `A`. -/
def sweep (n W r : Nat) (A : Mat n) : Mat n := sweepRows (ownedRows n W r) A

/-- The coordinator's output cell after `MPI_Reduce(tmp, c, n*n, MPI_INT,
MPI_BOR, 0, ...)` (line 76): the bitwise or of every rank's buffer cell. -/
def warshall (n W : Nat) (A : Mat n) : Mat n :=
  fun i j => (List.range W).foldl (fun acc r => Nat.lor acc (sweep n W r A i j)) 0

/-- Every cell of the matrix is 0 or 1. -/
def zeroOne {n : Nat} (M : Mat n) : Prop := ∀ i j, M i j = 0 ∨ M i j = 1

instance zeroOneDec {n : Nat} (M : Mat n) : Decidable (zeroOne M) :=
  inferInstanceAs (Decidable (∀ i j, M i j = 0 ∨ M i j = 1))

/-- There is a path of length ≥ 1 from `i` to `j` along edges of `A`
(a cell equal to 1 is an edge). -/
inductive hasPath {n : Nat} (A : Mat n) : Fin n → Fin n → Prop
  | edge {i j : Fin n} : A i j = 1 → hasPath A i j
  | cons {i k j : Fin n} : A i k = 1 → hasPath A k j → hasPath A i j

/-- There is a path of length ≥ 1 from `i` to `j` in `A` all of whose
intermediate nodes have index < `m`. -/
inductive pathVia {n : Nat} (A : Mat n) (m : Nat) : Fin n → Fin n → Prop
  | edge {i j : Fin n} : A i j = 1 → pathVia A m i j
  | cons {i k j : Fin n} : A i k = 1 → k.val < m → pathVia A m k j → pathVia A m i j

/-- The textbook simultaneous Floyd–Warshall recursion on the number of
pivots already processed, used as the reference point for the in-place
sweep: `fwMat A m` is the buffer after pivots `0 … m-1`. -/
def fwMat {n : Nat} (A : Mat n) : Nat → Mat n
  | 0 => A
  | m + 1 =>
    if h : m < n then
      fun i j =>
        cor (fwMat A m i j) (cand (fwMat A m i ⟨m, h⟩) (fwMat A m ⟨m, h⟩ j))
    else fwMat A m

/-- Replay of an explicit list of single-cell assignments `(k, i, j)`,
each one an instance of line 66, in the given order. -/
def applyOps {n : Nat} (ops : List (Fin n × Fin n × Fin n)) (M : Mat n) : Mat n :=
  ops.foldl (fun M op => updateCell M op.1 op.2.1 op.2.2) M

/-- The sequence of single-cell assignments performed by one iteration of
the `k` loop (lines 64–68), in program order. -/
def pivotOps (n : Nat) (owned : List (Fin n)) (k : Fin n) :
    List (Fin n × Fin n × Fin n) :=
  owned.flatMap fun i => (List.finRange n).map fun j => (k, i, j)

/-- The 4×4 chain `0→1→2→3` (the concrete scenario of the spec). -/
def chain4 : Mat 4 := fun i j =>
  if (i.val, j.val) ∈ [(0, 1), (1, 2), (2, 3)] then 1 else 0

/-- The 4×4 graph with edges `0→3`, `3→2`, `2→1`: node 1 is reachable from
node 0, but only through intermediates in decreasing index order crossing
the two stripes of a 2-worker run. -/
def miss4 : Mat 4 := fun i j =>
  if (i.val, j.val) ∈ [(0, 3), (3, 2), (2, 1)] then 1 else 0

/-- A 5×5 all-ones matrix (used to exercise the uneven division n = 5,
W = 2, where row 4 is owned by no rank). -/
def ones5 : Mat 5 := fun _ _ => 1

/-- One interleaving of the assignment sequences of the `k = 1` and `k = 2`
iterations of the loop at line 63, as the `#pragma omp parallel for` on that
loop permits when the two iterations land on different threads: the `k = 2`
thread processes row 0, then the whole `k = 1` iteration runs, then the
`k = 2` thread processes rows 1–3.  Each iteration's own assignments stay in
program order. -/
def raceOps : List (Fin 4 × Fin 4 × Fin 4) :=
  List.take 4 (pivotOps 4 (ownedRows 4 1 0) 2) ++ pivotOps 4 (ownedRows 4 1 0) 1
    ++ List.drop 4 (pivotOps 4 (ownedRows 4 1 0) 2)

/-- What a rank does about its `malloc` result for the n×n Working Copy,
lines 38–52: `abortWithDiagnostic` is the `fprintf(stderr, …)` +
`MPI_Finalize()` + `exit(1)` path, `proceedWithNullBuffer` means the rank
reaches `MPI_Bcast(&tmp[0][0], …)` with `tmp == NULL`. -/
inductive AllocOutcome : Type
  | abortWithDiagnostic
  | proceedWithNullBuffer
  | proceed
deriving DecidableEq

/-- Transcription of the allocation handling in `warshall` (lines 38–53):
the null test `if (tmp == 0)` is nested inside `if (rank == 0)`, so only
the coordinator checks its allocation; every other rank goes straight to
the broadcast with whatever pointer `malloc` returned. -/
def allocCheck (rank : Nat) (allocOk : Bool) : AllocOutcome :=
  if rank = 0 then
    if allocOk then .proceed else .abortWithDiagnostic
  else if allocOk then .proceed else .proceedWithNullBuffer

/-! Basic facts about the C logical connectives on `int` values. -/

theorem cor_zeroOne (x y : Nat) : cor x y = 0 ∨ cor x y = 1 := by
  unfold cor; split <;> simp

theorem cand_zeroOne (x y : Nat) : cand x y = 0 ∨ cand x y = 1 := by
  unfold cand; split <;> simp

theorem cor_eq_zero_iff {x y : Nat} : cor x y = 0 ↔ x = 0 ∧ y = 0 := by
  unfold cor; split <;> rename_i h
  · simp only [one_ne_zero, false_iff]; tauto
  · push_neg at h; simp [h]

theorem cand_ne_zero_iff {x y : Nat} : cand x y ≠ 0 ↔ x ≠ 0 ∧ y ≠ 0 := by
  unfold cand; split <;> rename_i h <;> simp [h]

theorem cor_eq_one_iff {x y : Nat} : cor x y = 1 ↔ x ≠ 0 ∨ y ≠ 0 := by
  unfold cor; split <;> rename_i h <;> simp [h]

theorem cand_eq_one_iff {x y : Nat} : cand x y = 1 ↔ x ≠ 0 ∧ y ≠ 0 := by
  unfold cand; split <;> rename_i h <;> simp [h]

theorem eq_one_iff_ne_zero {x : Nat} (hx : x = 0 ∨ x = 1) : x = 1 ↔ x ≠ 0 := by
  rcases hx with h | h <;> subst h <;> simp

theorem cor_ne_zero_iff {x y : Nat} : cor x y ≠ 0 ↔ x ≠ 0 ∨ y ≠ 0 := by
  unfold cor; split <;> rename_i h <;> simp [h]

/-- The self-absorption identity `x || (x && y) = x` for a 0/1-valued `x`:
this is why re-writing `tmp[i][k]` at column `j = k`, and re-writing row `k`
at pivot `k`, never changes a 0/1 buffer. -/
theorem cor_self_cand {x : Nat} (hx : x = 0 ∨ x = 1) (y : Nat) :
    cor x (cand x y) = x := by
  rcases hx with h | h <;> subst h <;> simp [cor, cand]

/-- The mirror identity `x || (y && x) = x` for a 0/1-valued `x`. -/
theorem cor_cand_self {x : Nat} (hx : x = 0 ∨ x = 1) (y : Nat) :
    cor x (cand y x) = x := by
  rcases hx with h | h <;> subst h <;> simp [cor, cand]

/-! The single cell assignment. -/

theorem updateCell_apply {n : Nat} (M : Mat n) (k i j i' j' : Fin n) :
    updateCell M k i j i' j' =
      if i' = i ∧ j' = j then cor (M i j) (cand (M i k) (M k j)) else M i' j' := rfl

theorem updateCell_other {n : Nat} (M : Mat n) (k i j i' j' : Fin n)
    (h : ¬(i' = i ∧ j' = j)) : updateCell M k i j i' j' = M i' j' := by
  rw [updateCell_apply, if_neg h]

theorem updateCell_self {n : Nat} (M : Mat n) (k i j : Fin n) :
    updateCell M k i j i j = cor (M i j) (cand (M i k) (M k j)) := by
  rw [updateCell_apply, if_pos ⟨rfl, rfl⟩]

/-! Characterization of the innermost `j` loop: on a 0/1 buffer the in-place
pass over row `i` behaves as a simultaneous update of that row computed from
the state at entry, because the only aliased reads (`tmp[i][k]` after column
`k` has been written, and `tmp[k][j]` when `i = k`) are value-preserved by
`cor_self_cand`. -/

theorem rowPass_fold {n : Nat} (M : Mat n) (hM : zeroOne M) (k i : Fin n)
    (js : List (Fin n)) : ∀ C : Mat n, js.Nodup →
    (∀ i' j', i' ≠ i → C i' j' = M i' j') →
    (∀ j, j ∈ js → C i j = M i j) →
    (∀ j : Fin n, j ∉ js → C i j = cor (M i j) (cand (M i k) (M k j))) →
    js.foldl (fun M j => updateCell M k i j) C = fun i' j' =>
      if i' = i then cor (M i j') (cand (M i k) (M k j')) else M i' j' := by
  induction js with
  | nil =>
    intro C _ h1 _ h3
    funext i' j'
    simp only [List.foldl_nil]
    by_cases hii : i' = i
    · subst hii
      rw [if_pos rfl, h3 j' (List.not_mem_nil j')]
    · rw [if_neg hii, h1 i' j' hii]
  | cons j0 js ih =>
    intro C hnd h1 h2 h3
    have hj0 : j0 ∈ j0 :: js := List.mem_cons_self _ _
    have hnotin : j0 ∉ js := (List.nodup_cons.mp hnd).1
    have hCik : C i k = M i k := by
      by_cases hk : k ∈ j0 :: js
      · exact h2 k hk
      · rw [h3 k hk]; exact cor_self_cand (hM i k) _
    have hCkj0 : C k j0 = M k j0 := by
      by_cases hki : k = i
      · subst hki; exact h2 j0 hj0
      · exact h1 k j0 hki
    have hwrite : cor (C i j0) (cand (C i k) (C k j0))
        = cor (M i j0) (cand (M i k) (M k j0)) := by
      rw [h2 j0 hj0, hCik, hCkj0]
    simp only [List.foldl_cons]
    apply ih (updateCell C k i j0) (List.Nodup.of_cons hnd)
    · intro i' j' hii
      rw [updateCell_other C k i j0 i' j' (fun h => hii h.1), h1 i' j' hii]
    · intro j hj
      have hne : ¬(i = i ∧ j = j0) := fun h => hnotin (h.2 ▸ hj)
      rw [updateCell_other C k i j0 i j hne, h2 j (List.mem_cons_of_mem _ hj)]
    · intro j hj
      by_cases hjj : j = j0
      · subst hjj
        rw [updateCell_self, hwrite]
      · have hne : ¬(i = i ∧ j = j0) := fun h => hjj h.2
        rw [updateCell_other C k i j0 i j hne]
        exact h3 j (fun h => (List.mem_cons.mp h).elim hjj hj)

/-- On a 0/1 buffer, the `j` loop over row `i` at pivot `k` rewrites exactly
row `i`, to `tmp[i][j] || (tmp[i][k] && tmp[k][j])` computed from the buffer
at loop entry. -/
theorem rowPass_eq {n : Nat} (M : Mat n) (hM : zeroOne M) (k i : Fin n) :
    rowPass k i M = fun i' j' =>
      if i' = i then cor (M i j') (cand (M i k) (M k j')) else M i' j' := by
  unfold rowPass
  exact rowPass_fold M hM k i (List.finRange n) M (List.nodup_finRange n)
    (fun _ _ _ => rfl) (fun _ _ => rfl)
    (fun j hj => absurd (List.mem_finRange j) hj)

/-! Characterization of the middle `i` loop: on a 0/1 buffer, one pivot
iteration rewrites exactly the owned rows, each from the buffer at pivot
entry.  The pivot row `k` itself is stable: even if the worker owns and has
already re-written row `k` during this pivot, its values are unchanged. -/

theorem zeroOne_of_mix {n : Nat} (M C : Mat n) (hM : zeroOne M)
    (h : ∀ i j, C i j = M i j ∨ ∃ x y, C i j = cor x y) : zeroOne C := by
  intro i j
  rcases h i j with h' | ⟨x, y, h'⟩
  · rw [h']; exact hM i j
  · rw [h']; exact cor_zeroOne x y

theorem pivotPass_fold {n : Nat} (M : Mat n) (hM : zeroOne M) (k : Fin n)
    (owned : List (Fin n)) : ∀ (processed : List (Fin n)) (C : Mat n),
    (processed ++ owned).Nodup →
    (∀ i j, C i j =
      if i ∈ processed then cor (M i j) (cand (M i k) (M k j)) else M i j) →
    owned.foldl (fun M i => rowPass k i M) C = fun i j =>
      if i ∈ processed ++ owned then cor (M i j) (cand (M i k) (M k j)) else M i j := by
  induction owned with
  | nil =>
    intro processed C _ hC
    funext i j
    simp only [List.foldl_nil, List.append_nil]
    exact hC i j
  | cons i0 owned ih =>
    intro processed C hnd hC
    have hdisj : processed.Disjoint (i0 :: owned) := (List.nodup_append.mp hnd).2.2
    have hi0 : i0 ∉ processed := fun h => hdisj h (List.mem_cons_self _ _)
    have hCzo : zeroOne C := by
      refine zeroOne_of_mix M C hM (fun i j => ?_)
      rw [hC i j]; split
      · exact Or.inr ⟨_, _, rfl⟩
      · exact Or.inl rfl
    have hMk : ∀ j, C k j = M k j := by
      intro j
      rw [hC k j]; split
      · exact cor_cand_self (hM k j) _
      · rfl
    simp only [List.foldl_cons]
    have hstep : rowPass k i0 C = fun i j =>
        if i ∈ processed ++ [i0] then cor (M i j) (cand (M i k) (M k j)) else M i j := by
      rw [rowPass_eq C hCzo k i0]
      funext i j
      by_cases hii : i = i0
      · subst hii
        rw [if_pos (List.mem_append.mpr (Or.inr (List.mem_singleton_self _)))]
        rw [if_pos rfl]
        rw [hC i j, if_neg hi0, hC i k, if_neg hi0, hMk j]
      · rw [if_neg hii, hC i j]
        have : i ∈ processed ++ [i0] ↔ i ∈ processed := by
          simp [List.mem_append, hii]
        by_cases hip : i ∈ processed
        · rw [if_pos hip, if_pos (this.mpr hip)]
        · rw [if_neg hip, if_neg (fun h => hip (this.mp h))]
    rw [hstep]
    have hnd' : ((processed ++ [i0]) ++ owned).Nodup := by
      rw [List.append_assoc]
      exact hnd
    have := ih (processed ++ [i0]) _ hnd' (fun i j => rfl)
    rw [this]
    funext i j
    have hmem : i ∈ (processed ++ [i0]) ++ owned ↔ i ∈ processed ++ i0 :: owned := by
      rw [List.append_assoc, List.singleton_append]
    by_cases him : i ∈ processed ++ i0 :: owned
    · rw [if_pos him, if_pos (hmem.mpr him)]
    · rw [if_neg him, if_neg (fun h => him (hmem.mp h))]

/-- On a 0/1 buffer, one pivot iteration over the owned rows rewrites
exactly those rows, each by the textbook relaxation computed from the
buffer at pivot entry. -/
theorem pivotPass_eq {n : Nat} (M : Mat n) (hM : zeroOne M) (k : Fin n)
    (owned : List (Fin n)) (hnd : owned.Nodup) :
    pivotPass owned k M = fun i j =>
      if i ∈ owned then cor (M i j) (cand (M i k) (M k j)) else M i j := by
  unfold pivotPass
  have := pivotPass_fold M hM k owned [] M (by simpa using hnd)
    (fun i j => by simp)
  simpa using this

theorem zeroOne_pivotPass {n : Nat} (M : Mat n) (hM : zeroOne M) (k : Fin n)
    (owned : List (Fin n)) (hnd : owned.Nodup) : zeroOne (pivotPass owned k M) := by
  rw [pivotPass_eq M hM k owned hnd]
  intro i j
  dsimp only
  split
  · exact cor_zeroOne _ _
  · exact hM i j

/-! Reachability facts. -/

theorem hasPath_trans {n : Nat} {A : Mat n} {i k j : Fin n} :
    hasPath A i k → hasPath A k j → hasPath A i j := by
  intro h1
  induction h1 with
  | edge h => exact fun h2 => hasPath.cons h h2
  | cons h _ ih => exact fun h2 => hasPath.cons h (ih h2)

theorem pathVia_mono {n : Nat} {A : Mat n} {m m' : Nat} (h : m ≤ m')
    {i j : Fin n} : pathVia A m i j → pathVia A m' i j := by
  intro hp
  induction hp with
  | edge he => exact pathVia.edge he
  | cons he hk _ ih => exact pathVia.cons he (Nat.lt_of_lt_of_le hk h) ih

/-- Two bounded paths compose through a node below the larger bound. -/
theorem pathVia_comp {n : Nat} {A : Mat n} {m m' : Nat} (hm : m ≤ m')
    {i k j : Fin n} (h1 : pathVia A m i k) :
    k.val < m' → pathVia A m k j → pathVia A m' i j := by
  induction h1 with
  | edge he => exact fun hk h2 => pathVia.cons he hk (pathVia_mono hm h2)
  | cons he hks _ ih =>
    exact fun hk h2 => pathVia.cons he (Nat.lt_of_lt_of_le hks hm) (ih hk h2)

/-- A path with intermediates below `m + 1` either avoids node `m`
altogether or splits at node `m` into two paths with intermediates
below `m`. -/
theorem pathVia_succ_elim {n : Nat} {A : Mat n} {m : Nat} (hm : m < n)
    {i j : Fin n} : pathVia A (m + 1) i j →
    pathVia A m i j ∨ (pathVia A m i ⟨m, hm⟩ ∧ pathVia A m ⟨m, hm⟩ j) := by
  intro hp
  induction hp with
  | edge he => exact Or.inl (pathVia.edge he)
  | @cons a k b he hk _ ih =>
    rcases Nat.lt_succ_iff_lt_or_eq.mp hk with hk' | hk'
    · rcases ih with h | ⟨h1, h2⟩
      · exact Or.inl (pathVia.cons he hk' h)
      · exact Or.inr ⟨pathVia.cons he hk' h1, h2⟩
    · have hkeq : k = ⟨m, hm⟩ := Fin.ext hk'
      have hmj : pathVia A m ⟨m, hm⟩ b := by
        rcases ih with h | ⟨_, h2⟩
        · exact hkeq ▸ h
        · exact h2
      exact Or.inr ⟨pathVia.edge (hkeq ▸ he), hmj⟩

theorem pathVia_n_iff_hasPath {n : Nat} (A : Mat n) (i j : Fin n) :
    pathVia A n i j ↔ hasPath A i j := by
  constructor
  · intro hp
    induction hp with
    | edge he => exact hasPath.edge he
    | cons he _ _ ih => exact hasPath.cons he ih
  · intro hp
    induction hp with
    | edge he => exact pathVia.edge he
    | cons he _ ih => exact pathVia.cons he (by omega) ih

/-! Correctness of the simultaneous Floyd–Warshall recursion. -/

theorem fwMat_succ_of_lt {n : Nat} (A : Mat n) {m : Nat} (hm : m < n) :
    fwMat A (m + 1) = fun i j =>
      cor (fwMat A m i j) (cand (fwMat A m i ⟨m, hm⟩) (fwMat A m ⟨m, hm⟩ j)) := by
  show (if h : m < n then _ else _) = _
  rw [dif_pos hm]

theorem fwMat_spec {n : Nat} (A : Mat n) (hA : zeroOne A) :
    ∀ m, m ≤ n → zeroOne (fwMat A m) ∧
      ∀ i j, (fwMat A m i j = 1 ↔ pathVia A m i j) := by
  intro m
  induction m with
  | zero =>
    intro _
    refine ⟨hA, fun i j => ?_⟩
    show A i j = 1 ↔ _
    constructor
    · exact fun h => pathVia.edge h
    · intro h
      cases h with
      | edge he => exact he
      | cons he hk rest => omega
  | succ m ih =>
    intro hm1
    have hm : m < n := Nat.lt_of_succ_le hm1
    obtain ⟨hzo, hiff⟩ := ih (Nat.le_of_lt hm)
    rw [fwMat_succ_of_lt A hm]
    refine ⟨fun i j => cor_zeroOne _ _, fun i j => ?_⟩
    constructor
    · intro h
      rcases cor_eq_one_iff.mp h with h' | h'
      · exact pathVia_mono (Nat.le_succ m) ((hiff i j).mp
          ((eq_one_iff_ne_zero (hzo i j)).mpr h'))
      · rcases cand_ne_zero_iff.mp h' with ⟨h1, h2⟩
        have p1 := (hiff i ⟨m, hm⟩).mp ((eq_one_iff_ne_zero (hzo i _)).mpr h1)
        have p2 := (hiff ⟨m, hm⟩ j).mp ((eq_one_iff_ne_zero (hzo _ j)).mpr h2)
        exact pathVia_comp (Nat.le_succ m) p1 (Nat.lt_succ_self m) p2
    · intro h
      rcases pathVia_succ_elim hm h with h' | ⟨h1, h2⟩
      · exact cor_eq_one_iff.mpr (Or.inl
          ((eq_one_iff_ne_zero (hzo i j)).mp ((hiff i j).mpr h')))
      · refine cor_eq_one_iff.mpr (Or.inr (cand_ne_zero_iff.mpr ⟨?_, ?_⟩))
        · exact (eq_one_iff_ne_zero (hzo i _)).mp ((hiff i ⟨m, hm⟩).mpr h1)
        · exact (eq_one_iff_ne_zero (hzo _ j)).mp ((hiff ⟨m, hm⟩ j).mpr h2)

/-! The in-place sweep with full row ownership computes the simultaneous
Floyd–Warshall recursion, pivot by pivot. -/

theorem sweep_full_take {n : Nat} (A : Mat n) (hA : zeroOne A)
    (owned : List (Fin n)) (hnd : owned.Nodup) (hfull : ∀ i : Fin n, i ∈ owned) :
    ∀ m, m ≤ n →
      ((List.finRange n).take m).foldl (fun M k => pivotPass owned k M) A
        = fwMat A m := by
  intro m
  induction m with
  | zero =>
    intro _
    rfl
  | succ m ih =>
    intro hm1
    have hm : m < n := Nat.lt_of_succ_le hm1
    have hprev := ih (Nat.le_of_lt hm)
    have hlen : m < (List.finRange n).length := by
      rw [List.length_finRange]; exact hm
    rw [List.take_succ, List.getElem?_eq_getElem hlen]
    simp only [Option.toList_some]
    rw [List.foldl_append, hprev]
    simp only [List.foldl_cons, List.foldl_nil]
    have hzo := (fwMat_spec A hA m (Nat.le_of_lt hm)).1
    rw [pivotPass_eq _ hzo _ owned hnd]
    have hkm : (List.finRange n)[m] = (⟨m, hm⟩ : Fin n) := by
      rw [List.getElem_finRange]
      exact Fin.ext rfl
    rw [hkm, fwMat_succ_of_lt A hm]
    funext i j
    rw [if_pos (hfull i)]

theorem sweepRows_full {n : Nat} (A : Mat n) (hA : zeroOne A)
    (owned : List (Fin n)) (hnd : owned.Nodup) (hfull : ∀ i : Fin n, i ∈ owned) :
    sweepRows owned A = fwMat A n := by
  have h := sweep_full_take A hA owned hnd hfull n (Nat.le_refl n)
  have htake : (List.finRange n).take n = List.finRange n :=
    List.take_of_length_le (by rw [List.length_finRange])
  rw [htake] at h
  exact h

/-! The single-rank stripe is the whole matrix. -/

theorem mem_ownedRows_one {n : Nat} (i : Fin n) : i ∈ ownedRows n 1 0 := by
  unfold ownedRows
  rw [List.mem_filter]
  refine ⟨List.mem_finRange i, ?_⟩
  simp [Nat.div_one, i.isLt]

theorem nodup_ownedRows (n W r : Nat) : (ownedRows n W r).Nodup :=
  (List.nodup_finRange n).filter _

theorem warshall_one {n : Nat} (A : Mat n) (i j : Fin n) :
    warshall n 1 A i j = sweep n 1 0 A i j := by
  show Nat.lor 0 (sweep n 1 0 A i j) = sweep n 1 0 A i j
  exact Nat.zero_or _

/-- Core characterization of a `W = 1` run: the coordinator's output cell is
1 exactly when `j` is reachable from `i` by a path of length ≥ 1. -/
theorem warshall_one_iff {n : Nat} (A : Mat n) (hA : zeroOne A) (i j : Fin n) :
    warshall n 1 A i j = 1 ↔ hasPath A i j := by
  rw [warshall_one]
  show sweepRows (ownedRows n 1 0) A i j = 1 ↔ _
  rw [sweepRows_full A hA _ (nodup_ownedRows n 1 0) mem_ownedRows_one]
  rw [(fwMat_spec A hA n (Nat.le_refl n)).2 i j]
  exact pathVia_n_iff_hasPath A i j

theorem zeroOne_warshall_one {n : Nat} (A : Mat n) (hA : zeroOne A) :
    zeroOne (warshall n 1 A) := by
  intro i j
  rw [warshall_one]
  show sweepRows (ownedRows n 1 0) A i j = 0 ∨ sweepRows (ownedRows n 1 0) A i j = 1
  rw [sweepRows_full A hA _ (nodup_ownedRows n 1 0) mem_ownedRows_one]
  exact (fwMat_spec A hA n (Nat.le_refl n)).1 i j

/-! Frame property: the sweep writes only owned rows. -/

theorem updateCell_row_ne {n : Nat} (M : Mat n) (k i j : Fin n) {i0 : Fin n}
    (h : i0 ≠ i) (j0 : Fin n) : updateCell M k i j i0 j0 = M i0 j0 :=
  updateCell_other M k i j i0 j0 (fun hc => h hc.1)

theorem rowPass_frame {n : Nat} (k i : Fin n) {i0 : Fin n} (h : i0 ≠ i)
    (j0 : Fin n) : ∀ (js : List (Fin n)) (C : Mat n),
    js.foldl (fun M j => updateCell M k i j) C i0 j0 = C i0 j0 := by
  intro js
  induction js with
  | nil => intro C; rfl
  | cons j1 js ih =>
    intro C
    rw [List.foldl_cons, ih, updateCell_row_ne _ _ _ _ h]

theorem pivotPass_frame {n : Nat} (owned : List (Fin n)) (k : Fin n)
    {i0 : Fin n} (j0 : Fin n) : ∀ (M : Mat n), i0 ∉ owned →
    pivotPass owned k M i0 j0 = M i0 j0 := by
  induction owned with
  | nil => intro M _; rfl
  | cons i1 owned ih =>
    intro M h
    show (owned.foldl (fun M i => rowPass k i M) (rowPass k i1 M)) i0 j0 = M i0 j0
    have h1 := ih (rowPass k i1 M) (fun hm => h (List.mem_cons_of_mem _ hm))
    have hne : i0 ≠ i1 := fun he => h (he ▸ List.mem_cons_self _ _)
    exact h1.trans (rowPass_frame k i1 hne j0 (List.finRange n) M)

theorem sweepRows_frame {n : Nat} (owned : List (Fin n)) {i0 : Fin n}
    (h : i0 ∉ owned) (j0 : Fin n) :
    ∀ (ks : List (Fin n)) (M : Mat n),
    ks.foldl (fun M k => pivotPass owned k M) M i0 j0 = M i0 j0 := by
  intro ks
  induction ks with
  | nil => intro M; rfl
  | cons k1 ks ih =>
    intro M
    rw [List.foldl_cons, ih, pivotPass_frame owned k1 j0 M h]

theorem mem_ownedRows_iff {n W r : Nat} (i : Fin n) :
    i ∈ ownedRows n W r ↔ (n / W * r ≤ i.val ∧ i.val < n / W * (r + 1)) := by
  unfold ownedRows
  rw [List.mem_filter]
  simp [List.mem_finRange]

/-- A rank's sweep leaves every row outside its stripe exactly as the
broadcast delivered it. -/
theorem sweep_frame {n W r : Nat} (A : Mat n) (i : Fin n)
    (h : ¬(n / W * r ≤ i.val ∧ i.val < n / W * (r + 1))) (j : Fin n) :
    sweep n W r A i j = A i j :=
  sweepRows_frame (ownedRows n W r) (fun hm => h ((mem_ownedRows_iff i).mp hm)) j
    (List.finRange n) A

/-! Generic preservation of an invariant along a fold. -/

theorem foldl_invariant {α β : Type} (P : α → Prop) (f : α → β → α)
    (hf : ∀ a b, P a → P (f a b)) : ∀ (l : List β) (a : α), P a → P (l.foldl f a) := by
  intro l
  induction l with
  | nil => exact fun a h => h
  | cons b l ih => exact fun a h => ih (f a b) (hf a b h)

/-! Soundness of every relaxation update: a nonzero cell always witnesses a
real path of the input graph, whatever rows a rank owns. -/

theorem sound_updateCell {n : Nat} (A M : Mat n) (k i j : Fin n)
    (hM : ∀ i' j', M i' j' ≠ 0 → hasPath A i' j') :
    ∀ i' j', updateCell M k i j i' j' ≠ 0 → hasPath A i' j' := by
  intro i' j' h
  rw [updateCell_apply] at h
  by_cases hc : i' = i ∧ j' = j
  · rw [if_pos hc] at h
    obtain ⟨hc1, hc2⟩ := hc
    subst hc1; subst hc2
    rcases cor_ne_zero_iff.mp h with h' | h'
    · exact hM i' j' h'
    · rcases cand_ne_zero_iff.mp h' with ⟨h1, h2⟩
      exact hasPath_trans (hM i' k h1) (hM k j' h2)
  · rw [if_neg hc] at h
    exact hM i' j' h

theorem sound_sweepRows {n : Nat} (A : Mat n) (hA : zeroOne A)
    (owned : List (Fin n)) :
    ∀ i j, sweepRows owned A i j ≠ 0 → hasPath A i j := by
  have base : ∀ i j, A i j ≠ 0 → hasPath A i j := fun i j h =>
    hasPath.edge ((eq_one_iff_ne_zero (hA i j)).mpr h)
  refine foldl_invariant (fun M => ∀ i' j', M i' j' ≠ 0 → hasPath A i' j')
    (fun M k => pivotPass owned k M) ?_ (List.finRange n) A base
  intro M k hM
  refine foldl_invariant (fun M => ∀ i' j', M i' j' ≠ 0 → hasPath A i' j')
    (fun M i => rowPass k i M) ?_ owned M hM
  intro M i hM'
  refine foldl_invariant (fun M => ∀ i' j', M i' j' ≠ 0 → hasPath A i' j')
    (fun M j => updateCell M k i j) ?_ (List.finRange n) M hM'
  intro M j hM''
  exact sound_updateCell A M k i j hM''

/-! Cells stay 0/1 through the whole sweep, for any ownership. -/

theorem zeroOne_updateCell {n : Nat} (M : Mat n) (k i j : Fin n)
    (hM : zeroOne M) : zeroOne (updateCell M k i j) := by
  intro i' j'
  rw [updateCell_apply]
  split
  · exact cor_zeroOne _ _
  · exact hM i' j'

theorem zeroOne_sweepRows {n : Nat} (A : Mat n) (hA : zeroOne A)
    (owned : List (Fin n)) : zeroOne (sweepRows owned A) := by
  refine foldl_invariant zeroOne (fun M k => pivotPass owned k M) ?_
    (List.finRange n) A hA
  intro M k hM
  refine foldl_invariant zeroOne (fun M i => rowPass k i M) ?_ owned M hM
  intro M i hM'
  refine foldl_invariant zeroOne (fun M j => updateCell M k i j) ?_
    (List.finRange n) M hM'
  intro M j hM''
  exact zeroOne_updateCell M k i j hM''

/-! Relaxation only sets bits: a 1 of the input never becomes 0. -/

theorem ones_kept_updateCell {n : Nat} (A M : Mat n) (k i j : Fin n)
    (hM : ∀ i' j', A i' j' = 1 → M i' j' ≠ 0) :
    ∀ i' j', A i' j' = 1 → updateCell M k i j i' j' ≠ 0 := by
  intro i' j' hAij
  rw [updateCell_apply]
  split
  · rename_i hc
    obtain ⟨hc1, hc2⟩ := hc
    subst hc1; subst hc2
    exact cor_ne_zero_iff.mpr (Or.inl (hM i' j' hAij))
  · exact hM i' j' hAij

theorem ones_kept_sweepRows {n : Nat} (A : Mat n) (owned : List (Fin n)) :
    ∀ i j, A i j = 1 → sweepRows owned A i j ≠ 0 := by
  have base : ∀ i j, A i j = 1 → A i j ≠ 0 := fun i j h => by rw [h]; exact one_ne_zero
  refine foldl_invariant (fun M => ∀ i' j', A i' j' = 1 → M i' j' ≠ 0)
    (fun M k => pivotPass owned k M) ?_ (List.finRange n) A base
  intro M k hM
  refine foldl_invariant (fun M => ∀ i' j', A i' j' = 1 → M i' j' ≠ 0)
    (fun M i => rowPass k i M) ?_ owned M hM
  intro M i hM'
  refine foldl_invariant (fun M => ∀ i' j', A i' j' = 1 → M i' j' ≠ 0)
    (fun M j => updateCell M k i j) ?_ (List.finRange n) M hM'
  intro M j hM''
  exact ones_kept_updateCell A M k i j hM''

/-! The `MPI_BOR` reduction over 0/1 buffers. -/

theorem lor_eq_cor {x y : Nat} (hx : x = 0 ∨ x = 1) (hy : y = 0 ∨ y = 1) :
    Nat.lor x y = cor x y := by
  rcases hx with h | h <;> rcases hy with h' | h' <;> subst h <;> subst h' <;> decide

theorem foldl_lor_spec (f : Nat → Nat) :
    ∀ (l : List Nat) (acc : Nat), (acc = 0 ∨ acc = 1) →
    (∀ r ∈ l, f r = 0 ∨ f r = 1) →
    ((l.foldl (fun a r => Nat.lor a (f r)) acc = 0
        ∨ l.foldl (fun a r => Nat.lor a (f r)) acc = 1)
      ∧ (l.foldl (fun a r => Nat.lor a (f r)) acc = 1
        ↔ acc = 1 ∨ ∃ r ∈ l, f r = 1)) := by
  intro l
  induction l with
  | nil =>
    intro acc hacc _
    refine ⟨hacc, ?_⟩
    simp only [List.foldl_nil, List.not_mem_nil, false_and, exists_false, or_false]
  | cons r0 l ih =>
    intro acc hacc hl
    have hf0 := hl r0 (List.mem_cons_self _ _)
    have hacc' : Nat.lor acc (f r0) = 0 ∨ Nat.lor acc (f r0) = 1 := by
      rcases hacc with h | h <;> rcases hf0 with h' | h' <;> rw [h, h'] <;> decide
    have ihs := ih (Nat.lor acc (f r0)) hacc'
      (fun r hr => hl r (List.mem_cons_of_mem _ hr))
    rw [List.foldl_cons]
    refine ⟨ihs.1, ihs.2.trans ?_⟩
    constructor
    · rintro (h | ⟨r, hr, hfr⟩)
      · rcases hacc with ha | ha
        · rcases hf0 with hb | hb
          · rw [ha, hb] at h; simp at h
          · exact Or.inr ⟨r0, List.mem_cons_self _ _, hb⟩
        · exact Or.inl ha
      · exact Or.inr ⟨r, List.mem_cons_of_mem _ hr, hfr⟩
    · rintro (h | ⟨r, hr, hfr⟩)
      · left; rw [h]
        rcases hf0 with hb | hb <;> rw [hb] <;> decide
      · rcases List.mem_cons.mp hr with h' | h'
        · subst h'
          left
          rcases hacc with ha | ha <;> rw [ha, hfr] <;> decide
        · exact Or.inr ⟨r, h', hfr⟩

/-- Core characterization of the coordinator's cell for any number of
ranks: it is 0/1, and it is 1 exactly when some rank's post-sweep buffer
has a 1 there. -/
theorem warshall_cell {n : Nat} (W : Nat) (A : Mat n) (hA : zeroOne A)
    (i j : Fin n) :
    (warshall n W A i j = 0 ∨ warshall n W A i j = 1)
    ∧ (warshall n W A i j = 1 ↔ ∃ r < W, sweep n W r A i j = 1) := by
  have hs : ∀ r ∈ List.range W, sweep n W r A i j = 0 ∨ sweep n W r A i j = 1 :=
    fun r _ => zeroOne_sweepRows A hA (ownedRows n W r) i j
  have h := foldl_lor_spec (fun r => sweep n W r A i j) (List.range W) 0
    (Or.inl rfl) hs
  refine ⟨h.1, ?_⟩
  refine h.2.trans ?_
  constructor
  · rintro (h0 | ⟨r, hr, hfr⟩)
    · cases h0
    · exact ⟨r, List.mem_range.mp hr, hfr⟩
  · rintro ⟨r, hr, hfr⟩
    exact Or.inr ⟨r, List.mem_range.mpr hr, hfr⟩

theorem zeroOne_warshall {n : Nat} (W : Nat) (A : Mat n) (hA : zeroOne A) :
    zeroOne (warshall n W A) :=
  fun i j => (warshall_cell W A hA i j).1

theorem lor_self (x : Nat) : Nat.lor x x = x := Nat.or_self x

theorem lor_zero_left (x : Nat) : Nat.lor 0 x = x := Nat.zero_or x

/-! Uneven division: a row at index `W*(n/W)` or beyond lies in no rank's
stripe. -/

theorem stripe_all_miss {n W r : Nat} (hr : r < W) {i : Fin n}
    (hi : W * (n / W) ≤ i.val) :
    ¬(n / W * r ≤ i.val ∧ i.val < n / W * (r + 1)) := by
  rintro ⟨_, h2⟩
  have h3 : n / W * (r + 1) ≤ n / W * W := Nat.mul_le_mul_left _ hr
  have h4 : W * (n / W) = n / W * W := Nat.mul_comm _ _
  omega

theorem foldl_lor_all_eq (f : Nat → Nat) (v : Nat) :
    ∀ l : List Nat, (∀ r ∈ l, f r = v) →
    ∀ acc, acc = v → l.foldl (fun a r => Nat.lor a (f r)) acc = v := by
  intro l
  induction l with
  | nil => intro _ acc h; exact h
  | cons r0 l ih =>
    intro hl acc h
    rw [List.foldl_cons, h, hl r0 (List.mem_cons_self _ _), lor_self]
    exact ih (fun r hr => hl r (List.mem_cons_of_mem _ hr)) v rfl

/-- When a row is in no rank's stripe, the OR-reduction of `W ≥ 1`
identical unrelaxed copies reproduces the input row on the coordinator. -/
theorem warshall_unowned_row {n W : Nat} (A : Mat n) (hW : 1 ≤ W) (i : Fin n)
    (hi : W * (n / W) ≤ i.val) (j : Fin n) : warshall n W A i j = A i j := by
  have hall : ∀ r ∈ List.range W, sweep n W r A i j = A i j := fun r hr =>
    sweep_frame A i (stripe_all_miss (List.mem_range.mp hr) hi) j
  obtain ⟨w, rfl⟩ : ∃ w, W = w + 1 := ⟨W - 1, by omega⟩
  show (List.range (w + 1)).foldl
    (fun acc r => Nat.lor acc (sweep n (w + 1) r A i j)) 0 = A i j
  rw [List.range_succ_eq_map, List.foldl_cons, List.foldl_map, lor_zero_left,
    hall 0 (List.mem_range.mpr (Nat.succ_pos w))]
  exact foldl_lor_all_eq _ _ _
    (fun r hr => hall (Nat.succ r)
      (List.mem_range.mpr (Nat.succ_lt_succ (List.mem_range.mp hr)))) _ rfl

/-! The two stripes of a 2-rank run on an evenly divided matrix. -/

theorem ownedRows_two_lower (n : Nat) :
    ownedRows n 2 0 = (List.finRange n).filter fun v => decide (v.val < n / 2) := by
  unfold ownedRows
  apply List.filter_congr
  intro x _
  rw [decide_eq_decide, Nat.mul_zero, Nat.mul_one]
  omega

theorem ownedRows_two_upper (n : Nat) (h : 2 ∣ n) :
    ownedRows n 2 1 = (List.finRange n).filter fun v => decide (n / 2 ≤ v.val) := by
  unfold ownedRows
  apply List.filter_congr
  intro x _
  have hn : n / 2 * 2 = n := Nat.div_mul_cancel h
  have hx := x.isLt
  rw [decide_eq_decide, Nat.mul_one]
  omega

theorem foldl_lor_eq_foldl_cor (f : Nat → Nat) :
    ∀ (l : List Nat) (acc : Nat), (acc = 0 ∨ acc = 1) →
    (∀ r ∈ l, f r = 0 ∨ f r = 1) →
    l.foldl (fun a r => Nat.lor a (f r)) acc = l.foldl (fun a r => cor a (f r)) acc := by
  intro l
  induction l with
  | nil => intro acc _ _; rfl
  | cons r0 l ih =>
    intro acc hacc hl
    rw [List.foldl_cons, List.foldl_cons,
      lor_eq_cor hacc (hl r0 (List.mem_cons_self _ _))]
    exact ih (cor acc (f r0)) (cor_zeroOne _ _)
      (fun r hr => hl r (List.mem_cons_of_mem _ hr))

/-! Idempotence support: paths of the closed matrix are paths of the
original. -/

theorem hasPath_warshall_one_iff {n : Nat} (A : Mat n) (hA : zeroOne A)
    (i j : Fin n) : hasPath (warshall n 1 A) i j ↔ hasPath A i j := by
  constructor
  · intro h
    induction h with
    | edge he => exact (warshall_one_iff A hA _ _).mp he
    | cons he _ ih => exact hasPath_trans ((warshall_one_iff A hA _ _).mp he) ih
  · intro h
    exact hasPath.edge ((warshall_one_iff A hA i j).mpr h)

theorem eq_of_zeroOne_iff {x y : Nat} (hx : x = 0 ∨ x = 1) (hy : y = 0 ∨ y = 1)
    (h : x = 1 ↔ y = 1) : x = y := by
  rcases hx with h1 | h1 <;> rcases hy with h2 | h2 <;> subst h1 <;> subst h2 <;>
    simp_all

/-! The loop nest as an explicit operation sequence: one pivot iteration is
exactly the replay of its op block in program order. -/

theorem applyOps_append {n : Nat} (l1 l2 : List (Fin n × Fin n × Fin n))
    (M : Mat n) : applyOps (l1 ++ l2) M = applyOps l2 (applyOps l1 M) :=
  List.foldl_append _ _ _ _

theorem rowPass_ops {n : Nat} (k i : Fin n) (M : Mat n) :
    rowPass k i M = applyOps ((List.finRange n).map fun j => (k, i, j)) M := by
  unfold rowPass applyOps
  rw [List.foldl_map]

theorem pivotPass_ops {n : Nat} (owned : List (Fin n)) (k : Fin n) :
    ∀ M : Mat n, pivotPass owned k M = applyOps (pivotOps n owned k) M := by
  induction owned with
  | nil => intro M; rfl
  | cons i1 owned ih =>
    intro M
    show owned.foldl (fun M i => rowPass k i M) (rowPass k i1 M) = _
    have h1 : pivotOps n (i1 :: owned) k
        = ((List.finRange n).map fun j => (k, i1, j)) ++ pivotOps n owned k := by
      unfold pivotOps
      rw [List.flatMap_cons]
    rw [h1, applyOps_append, ← rowPass_ops]
    exact ih (rowPass k i1 M)

/-! Claim theorems. -/

/-- C1: with a single worker (`W = 1`), the coordinator's output is the
exact textbook transitive closure of the 0/1 input matrix: a cell is 1
exactly when there is a direct edge or a path of length ≥ 1 from `i` to
`j` in `A`. -/
theorem claim_single_worker_closure {n : Nat} (A : Mat n) (hA : zeroOne A)
    (i j : Fin n) : warshall n 1 A i j = 1 ↔ (A i j = 1 ∨ hasPath A i j) := by
  rw [warshall_one_iff A hA]
  exact ⟨fun h => Or.inr h, fun h => h.elim (fun h' => hasPath.edge h') id⟩

theorem claim_single_worker_closure_witness :
    zeroOne chain4
    ∧ (warshall 4 1 chain4 0 3 = 1 ↔ (chain4 0 3 = 1 ∨ hasPath chain4 0 3)) :=
  ⟨by decide, claim_single_worker_closure chain4 (by decide) 0 3⟩

/-- C2 (documents the bug): in the source the `#pragma omp parallel for`
sits on the `k` loop (line 62–63), not on the row loop, so distinct `k`
iterations may interleave across threads.  `raceOps` is such an
interleaving of the `k = 1` and `k = 2` iterations (each block kept in
program order, as witnessed by the permutation and the two sublist facts),
and replaying it loses the reachable pair (0,3) of the 4-chain that the
claimed strictly-increasing sequential `k` order (the `sweepRows` run)
finds. -/
theorem claim_k_loop_interleaving_changes_result :
    raceOps.Perm (pivotOps 4 (ownedRows 4 1 0) 1 ++ pivotOps 4 (ownedRows 4 1 0) 2)
    ∧ (pivotOps 4 (ownedRows 4 1 0) 1).Sublist raceOps
    ∧ (pivotOps 4 (ownedRows 4 1 0) 2).Sublist raceOps
    ∧ (∀ i j : Fin 4, sweepRows (ownedRows 4 1 0) chain4 i j =
        applyOps (pivotOps 4 (ownedRows 4 1 0) 0 ++ pivotOps 4 (ownedRows 4 1 0) 1
          ++ pivotOps 4 (ownedRows 4 1 0) 2 ++ pivotOps 4 (ownedRows 4 1 0) 3)
          chain4 i j)
    ∧ applyOps (pivotOps 4 (ownedRows 4 1 0) 0 ++ raceOps
        ++ pivotOps 4 (ownedRows 4 1 0) 3) chain4 0 3 = 0
    ∧ sweepRows (ownedRows 4 1 0) chain4 0 3 = 1
    ∧ warshall 4 1 chain4 0 3 = 1 := by
  decide

/-- C3: for any number of ranks, a 1 in the coordinator's output always
witnesses a real path of length ≥ 1 in the input; and the approximation is
strict in general: on `miss4` with `W = 2`, node 1 is reachable from node
0 but the output cell is 0. -/
theorem claim_multi_worker_under_approx :
    (∀ (n W : Nat) (A : Mat n), zeroOne A → 1 ≤ W →
      ∀ i j : Fin n, warshall n W A i j = 1 → hasPath A i j)
    ∧ hasPath miss4 0 1 ∧ warshall 4 2 miss4 0 1 = 0 := by
  refine ⟨?_, ?_, by decide⟩
  · intro n W A hA _ i j h
    obtain ⟨r, _, hr⟩ := (warshall_cell W A hA i j).2.mp h
    have hr' : sweepRows (ownedRows n W r) A i j = 1 := hr
    exact sound_sweepRows A hA (ownedRows n W r) i j (by rw [hr']; exact one_ne_zero)
  · exact hasPath.cons (k := 3) (by decide)
      (hasPath.cons (k := 2) (by decide) (hasPath.edge (by decide)))

theorem claim_multi_worker_under_approx_witness : hasPath chain4 0 3 :=
  claim_multi_worker_under_approx.1 4 1 chain4 (by decide) (by decide) 0 3 (by decide)

/-- C4: the aggregation is the element-wise logical OR of all ranks'
post-relaxation buffers, and for `2 ∣ n` a direct 2-rank run equals the OR
of the two single-stripe sweeps over the disjoint half stripes. -/
theorem claim_or_reduction {n : Nat} (A : Mat n) (hA : zeroOne A) :
    (∀ W, ∀ i j : Fin n, warshall n W A i j =
      (List.range W).foldl (fun acc r => cor acc (sweep n W r A i j)) 0)
    ∧ (2 ∣ n → ∀ i j : Fin n, warshall n 2 A i j =
      cor (sweepRows ((List.finRange n).filter fun v => decide (v.val < n / 2)) A i j)
        (sweepRows ((List.finRange n).filter fun v => decide (n / 2 ≤ v.val)) A i j)) := by
  constructor
  · intro W i j
    exact foldl_lor_eq_foldl_cor (fun r => sweep n W r A i j) (List.range W) 0
      (Or.inl rfl) (fun r _ => zeroOne_sweepRows A hA (ownedRows n W r) i j)
  · intro hdvd i j
    have e0 : sweep n 2 0 A
        = sweepRows ((List.finRange n).filter fun v => decide (v.val < n / 2)) A := by
      unfold sweep
      rw [ownedRows_two_lower]
    have e1 : sweep n 2 1 A
        = sweepRows ((List.finRange n).filter fun v => decide (n / 2 ≤ v.val)) A := by
      unfold sweep
      rw [ownedRows_two_upper n hdvd]
    show Nat.lor (Nat.lor 0 (sweep n 2 0 A i j)) (sweep n 2 1 A i j) = _
    rw [e0, e1, lor_zero_left,
      lor_eq_cor (e0 ▸ zeroOne_sweepRows A hA (ownedRows n 2 0) i j)
        (e1 ▸ zeroOne_sweepRows A hA (ownedRows n 2 1) i j)]

theorem claim_or_reduction_witness :
    warshall 4 2 chain4 0 3 =
      cor (sweepRows ((List.finRange 4).filter fun v => decide (v.val < 4 / 2)) chain4 0 3)
        (sweepRows ((List.finRange 4).filter fun v => decide (4 / 2 ≤ v.val)) chain4 0 3) :=
  (claim_or_reduction chain4 (by decide)).2 (by decide) 0 3

/-- C5: after a rank's sweep, every row outside its stripe
`[r*(n/W), (r+1)*(n/W))` still holds exactly the broadcast value (the
coordinator's input matrix); only owned rows can differ. -/
theorem claim_unowned_rows_untouched {n W : Nat} (r : Nat) (hr : r < W)
    (A : Mat n) (i : Fin n)
    (hout : ¬(n / W * r ≤ i.val ∧ i.val < n / W * (r + 1))) (j : Fin n) :
    sweep n W r A i j = A i j :=
  sweep_frame A i hout j

theorem claim_unowned_rows_untouched_witness :
    (0 < 2 ∧ ¬(4 / 2 * 0 ≤ 2 ∧ 2 < 4 / 2 * (0 + 1)))
    ∧ sweep 4 2 0 chain4 2 0 = chain4 2 0 :=
  ⟨by decide, claim_unowned_rows_untouched 0 (by decide) chain4 2 (by decide) 0⟩

/-- C6: every output cell dominates the corresponding input cell; the
relaxation and the OR-reduction never clear a set bit. -/
theorem claim_output_monotone {n W : Nat} (A : Mat n) (hA : zeroOne A)
    (hW : 1 ≤ W) (i j : Fin n) : A i j ≤ warshall n W A i j := by
  rcases hA i j with h | h
  · rw [h]; exact Nat.zero_le _
  · rw [h]
    have h0 : sweep n W 0 A i j = 1 := by
      have hne := ones_kept_sweepRows A (ownedRows n W 0) i j h
      exact (eq_one_iff_ne_zero (zeroOne_sweepRows A hA _ i j)).mpr hne
    have hw := (warshall_cell W A hA i j).2.mpr ⟨0, by omega, h0⟩
    omega

theorem claim_output_monotone_witness :
    zeroOne chain4 ∧ 1 ≤ 2 ∧ chain4 0 3 ≤ warshall 4 2 chain4 0 3 :=
  ⟨by decide, by decide, claim_output_monotone chain4 (by decide) (by decide) 0 3⟩

/-- C7 (documents the bug): the `malloc` null test is nested inside
`if (rank == 0)`, so a coordinator allocation failure aborts with a
diagnostic, but a non-coordinator rank whose allocation fails performs no
check at all and proceeds into `MPI_Bcast` with a null buffer instead of
aborting with a diagnostic. -/
theorem claim_alloc_check_rank0_only :
    allocCheck 0 false = AllocOutcome.abortWithDiagnostic
    ∧ allocCheck 1 false = AllocOutcome.proceedWithNullBuffer
    ∧ allocCheck 1 false ≠ AllocOutcome.abortWithDiagnostic := by
  decide

/-- C8: with integer division, rows at index `W*(n/W)` and beyond are in no
rank's stripe: no sweep writes them, and the corresponding rows of the
coordinator's output equal the input rows unrelaxed. -/
theorem claim_remainder_rows_unrelaxed {n W : Nat} (A : Mat n) (hW : 1 ≤ W)
    (hndvd : ¬ W ∣ n) (i : Fin n) (hi : W * (n / W) ≤ i.val) :
    (∀ r, r < W → ∀ j, sweep n W r A i j = A i j)
    ∧ ∀ j, warshall n W A i j = A i j :=
  ⟨fun r hr j => sweep_frame A i (stripe_all_miss hr hi) j,
    fun j => warshall_unowned_row A hW i hi j⟩

theorem claim_remainder_rows_unrelaxed_witness :
    (1 ≤ 2 ∧ ¬ 2 ∣ 5 ∧ 2 * (5 / 2) ≤ 4)
    ∧ ((∀ r, r < 2 → ∀ j, sweep 5 2 r ones5 4 j = ones5 4 j)
      ∧ ∀ j, warshall 5 2 ones5 4 j = ones5 4 j) :=
  ⟨by decide,
    claim_remainder_rows_unrelaxed ones5 (by decide) (by decide) 4 (by decide)⟩

/-- C9: the single-worker core is idempotent: applying it to its own output
returns that output unchanged. -/
theorem claim_idempotent {n : Nat} (A : Mat n) (hA : zeroOne A) :
    warshall n 1 (warshall n 1 A) = warshall n 1 A := by
  funext i j
  have hC := zeroOne_warshall_one A hA
  refine eq_of_zeroOne_iff (zeroOne_warshall_one _ hC i j) (hC i j) ?_
  rw [warshall_one_iff (warshall n 1 A) hC i j, hasPath_warshall_one_iff A hA i j,
    warshall_one_iff A hA i j]

theorem claim_idempotent_witness :
    warshall 4 1 (warshall 4 1 chain4) = warshall 4 1 chain4 :=
  claim_idempotent chain4 (by decide)

/-- C10: on a 0/1 input every relaxation update writes a 0/1 value, every
rank's post-sweep buffer is 0/1-valued, and consequently the bitwise-OR
(`MPI_BOR`) reduction coincides with the element-wise logical OR. -/
theorem claim_bor_is_logical_or {n : Nat} (A : Mat n) (hA : zeroOne A) :
    (∀ M : Mat n, zeroOne M → ∀ k i j : Fin n, zeroOne (updateCell M k i j))
    ∧ (∀ W r, zeroOne (sweep n W r A))
    ∧ (∀ W, ∀ i j : Fin n, warshall n W A i j =
      (List.range W).foldl (fun acc r => cor acc (sweep n W r A i j)) 0) := by
  refine ⟨fun M hM k i j => zeroOne_updateCell M k i j hM,
    fun W r => zeroOne_sweepRows A hA (ownedRows n W r), fun W i j => ?_⟩
  exact foldl_lor_eq_foldl_cor (fun r => sweep n W r A i j) (List.range W) 0
    (Or.inl rfl) (fun r _ => zeroOne_sweepRows A hA (ownedRows n W r) i j)

theorem claim_bor_is_logical_or_witness :
    warshall 4 2 chain4 0 3 =
      (List.range 2).foldl (fun acc r => cor acc (sweep 4 2 r chain4 0 3)) 0 :=
  (claim_bor_is_logical_or chain4 (by decide)).2.2 2 0 3

end GraphPar
